import Mathlib

/-!
Verification of `packages/utils/src/prune.ts` (`pruneSchema` and its helpers)
against its natural-language specification.

The type graph is shallowly embedded: a schema is a list of named type
definitions plus the root-type names and the (already unwrapped) named input
types of all directive arguments.  Field and argument types are stored as the
innermost named type (the source always unwraps via `getNamedType`), so the
unwrapping rule of the spec is folded into the data model.

The mutually recursive traversal `visitOutputType` / `visitInputType` of the
source is embedded as a single task-stack loop `visitList` threading the shared
visited set and the `unusedTypes` record exactly as the source's mutable
records do; a task records the position (output or input) the source function
would have been called in.  The stack processes children in the source's
visiting order, so the marking order and the final state coincide with the
recursive original.  Fuel decreases at every processed task; the theorem
`visitList_isSome_of_le` shows the chosen fuel never runs out.
-/

namespace Prune

/-- A field of an object, interface or input object type: its name, the name
of its innermost (unwrapped) named type, and the names of the innermost named
types of its arguments (input objects have no arguments, the list is empty). -/
structure Field where
  name : String
  typeName : String
  args : List String
deriving DecidableEq, Repr

/-- A named type definition: one of the six GraphQL categories.  `object` and
`interface` carry the list of interface names they declare implementing (the
source tests `'getInterfaces' in type`, which holds for both). -/
inductive TypeDef where
  | scalar : TypeDef
  | enum : TypeDef
  | object (fields : List Field) (interfaces : List String) : TypeDef
  | interface (fields : List Field) (interfaces : List String) : TypeDef
  | union (members : List String) : TypeDef
  | inputObject (fields : List Field) : TypeDef
deriving DecidableEq, Repr

/-- The input type graph: the type map (`schema.getTypeMap()`, as an ordered
association list), the root type names (`getRootTypes`) and the unwrapped named
types of every schema-directive argument (`schema.getDirectives()`). -/
structure Schema where
  types : List (String × TypeDef)
  rootTypes : List String
  directiveArgs : List String
deriving DecidableEq, Repr

/-- `PruneSchemaOptions`: the four skip flags plus the optional
`skipPruning` predicate (which receives the named type). -/
structure PruneSchemaOptions where
  skipEmptyCompositeTypePruning : Bool := false
  skipEmptyUnionPruning : Bool := false
  skipUnusedTypesPruning : Bool := false
  skipUnimplementedInterfacesPruning : Bool := false
  skipPruning : Option (String → TypeDef → Bool) := none

/-- The default options `{}`. -/
def defaultOptions : PruneSchemaOptions := {}

/-- `name.startsWith('__')`: the name begins with the reserved introspection
prefix.  Stated on the character list of the string so that it reduces by
computation. -/
def isReservedName (n : String) : Bool :=
  n.data.take 2 == ['_', '_']

/-- Look up a type definition by name in a type map (first match, mirroring
the unique-key record of the source). -/
def findTd (l : List (String × TypeDef)) (n : String) : Option TypeDef :=
  (l.find? (fun p => p.1 == n)).map (fun p => p.2)

/-- `schema.getType(name)`. -/
def lookupType (s : Schema) (n : String) : Option TypeDef :=
  findTd s.types n

/-- The `'getInterfaces' in type` test: `some` exactly for the categories that
expose an implements-interfaces list. -/
def getInterfacesOf : TypeDef → Option (List String)
  | .object _ ifaces => some ifaces
  | .interface _ ifaces => some ifaces
  | _ => none

/-- `getImplementations`: look up the implementations record of an interface
name.  `none` models the absent entry (`undefined`). -/
def lookupImpl (impls : List (String × List String)) (n : String) : Option (List String) :=
  (impls.find? (fun p => p.1 == n)).map (fun p => p.2)

/-- One assignment `implementations[iface][tname] = true` of the source,
including the creation of the entry when it is absent. -/
def addImplementation (impls : List (String × List String)) (iface tname : String) :
    List (String × List String) :=
  match lookupImpl impls iface with
  | none => impls ++ [(iface, [tname])]
  | some _ =>
      impls.map (fun p =>
        if p.1 == iface then (p.1, if p.2.contains tname then p.2 else p.2 ++ [tname]) else p)

/-- `createPruningContext`: scan the whole type map and record, for every
interface a type declares implementing, that type's name under the interface's
name.  Only the implementations index is returned (the schema and the
`unusedTypes` record of the source's context are carried separately). -/
def createPruningContext (s : Schema) : List (String × List String) :=
  s.types.foldl
    (fun impls p =>
      match getInterfacesOf p.2 with
      | none => impls
      | some ifaces => ifaces.foldl (fun acc iface => addImplementation acc iface p.1) impls)
    []

/-- A pending traversal call: `visitOutputType name` or `visitInputType name`. -/
inductive VisitTask where
  | outputType (name : String) : VisitTask
  | inputType (name : String) : VisitTask
deriving DecidableEq, Repr

/-- The name the task visits. -/
def taskName : VisitTask → String
  | .outputType n => n
  | .inputType n => n

/-- Whether the task is an output-position visit. -/
def taskIsOutput : VisitTask → Bool
  | .outputType _ => true
  | .inputType _ => false

/-- The mutable state threaded through the traversal: the shared visited set
(each entry remembers the position in which the name was first visited; the
guard ignores that position, exactly as the source's shared record does) and
the `unusedTypes` record (later entries shadow earlier ones, like record
assignment). -/
structure VisitState where
  visited : List (String × Bool)
  unusedTypes : List (String × Bool)
deriving Repr

/-- `visitedTypes[name]` truthiness. -/
def visitedContains (st : VisitState) (n : String) : Bool :=
  st.visited.any (fun p => p.1 == n)

/-- The two assignments `visitedTypes[name] = true` and
`unusedTypes[name] = false` performed on a first visit. -/
def markVisited (st : VisitState) (n : String) (isOut : Bool) : VisitState :=
  { visited := (n, isOut) :: st.visited,
    unusedTypes := (n, false) :: st.unusedTypes }

/-- `pruningContext.unusedTypes[name]` truthiness (`undefined` is falsy). -/
def unusedTypeFlag (st : VisitState) (n : String) : Bool :=
  match st.unusedTypes.find? (fun p => p.1 == n) with
  | some p => p.2
  | none => false

/-- The recursive calls issued by `visitOutputType` on a first visit, in
source order: per field the field's named type then the field's argument
types; for interfaces the recorded implementations when the index entry is
present; then the declared interfaces of the type. -/
def outputChildren (impls : List (String × List String)) (name : String) :
    TypeDef → List VisitTask
  | .object fields ifaces =>
      (fields.map (fun f => VisitTask.outputType f.typeName :: f.args.map VisitTask.inputType)).flatten
        ++ ifaces.map VisitTask.outputType
  | .interface fields ifaces =>
      (fields.map (fun f => VisitTask.outputType f.typeName :: f.args.map VisitTask.inputType)).flatten
        ++ (match lookupImpl impls name with
            | some impl => impl.map VisitTask.outputType
            | none => [])
        ++ ifaces.map VisitTask.outputType
  | .union members => members.map VisitTask.outputType
  | _ => []

/-- The recursive calls issued by `visitInputType` on a first visit: the field
types of an input object, nothing otherwise. -/
def inputChildren : TypeDef → List VisitTask
  | .inputObject fields => fields.map (fun f => VisitTask.inputType f.typeName)
  | _ => []

/-- The traversal loop: run the pending visit calls in order, sharing the
visited set and the unused record.  A task whose name is already visited
returns immediately; otherwise the name is marked visited and used and the
task's recursive calls are pushed in front of the remaining ones (the
depth-first order of the source).  Fuel decreases at every task; `none` means
the fuel ran out (shown impossible for the fuel used below). -/
def visitList (s : Schema) (impls : List (String × List String)) :
    Nat → VisitState → List VisitTask → Option VisitState
  | _, st, [] => some st
  | 0, _, _ :: _ => none
  | fuel + 1, st, t :: rest =>
      if visitedContains st (taskName t) then
        visitList s impls fuel st rest
      else
        let st' := markVisited st (taskName t) (taskIsOutput t)
        match lookupType s (taskName t) with
        | none => visitList s impls fuel st' rest
        | some td =>
            let children :=
              if taskIsOutput t then outputChildren impls (taskName t) td
              else inputChildren td
            visitList s impls fuel st' (children ++ rest)

/-- Work contributed by a single not-yet-visited type-map entry: the number of
recursive calls it can spawn in either position. -/
def workOf (impls : List (String × List String)) (n : String) (td : TypeDef) : Nat :=
  (outputChildren impls n td).length + (inputChildren td).length

/-- Remaining traversal work: the work of every type-map entry whose name is
not yet visited. -/
def pendingWork (impls : List (String × List String)) (st : VisitState) :
    List (String × TypeDef) → Nat
  | [] => 0
  | p :: rest =>
      (if visitedContains st p.1 then 0 else workOf impls p.1 p.2) + pendingWork impls st rest

/-- The initial `unusedTypes` record built by `visitTypes`: every non-reserved
type-map name is marked unused. -/
def initUnused (s : Schema) : List (String × Bool) :=
  (s.types.map Prod.fst).filterMap (fun n => if isReservedName n then none else some (n, true))

/-- The initial traversal state of a pass. -/
def initState (s : Schema) : VisitState :=
  { visited := [], unusedTypes := initUnused s }

/-- The seed calls of `visitTypes`: every root type in output position, then
every directive-argument type in input position. -/
def rootTasks (s : Schema) : List VisitTask :=
  s.rootTypes.map VisitTask.outputType ++ s.directiveArgs.map VisitTask.inputType

/-- Fuel sufficient for the whole traversal (proved below). -/
def visitFuel (s : Schema) : Nat :=
  (rootTasks s).length + pendingWork (createPruningContext s) (initState s) s.types

/-- `visitTypes` as a fallible computation. -/
def visitTypesRun (s : Schema) : Option VisitState :=
  visitList s (createPruningContext s) (visitFuel s) (initState s) (rootTasks s)

/-- `visitTypes`: seed the unused record, then mark everything reachable from
the root types and the directive argument types. -/
def visitTypes (s : Schema) : VisitState :=
  (visitTypesRun s).getD (initState s)

/-- `options.skipPruning && options.skipPruning(type)`. -/
def skipPruningApplies (o : PruneSchemaOptions) (n : String) (td : TypeDef) : Bool :=
  match o.skipPruning with
  | some p => p n td
  | none => false

/-- The per-type removal decision of the selector loop in `pruneSchema`
(lines 51-90 of the source): reserved names and predicate-exempted types are
never pruned; otherwise the category rules combine with logical or. -/
def shouldPrune (impls : List (String × List String)) (st : VisitState)
    (o : PruneSchemaOptions) (n : String) (td : TypeDef) : Bool :=
  if isReservedName n then false
  else if skipPruningApplies o n td then false
  else
    match td with
    | .object fields _ =>
        (fields.isEmpty && !o.skipEmptyCompositeTypePruning)
          || (unusedTypeFlag st n && !o.skipUnusedTypesPruning)
    | .inputObject fields =>
        (fields.isEmpty && !o.skipEmptyCompositeTypePruning)
          || (unusedTypeFlag st n && !o.skipUnusedTypesPruning)
    | .union members =>
        (members.isEmpty && !o.skipEmptyUnionPruning)
          || (unusedTypeFlag st n && !o.skipUnusedTypesPruning)
    | .interface fields _ =>
        (fields.isEmpty && !o.skipEmptyCompositeTypePruning)
          || (match lookupImpl impls n with
              | some impl => impl.isEmpty && !o.skipUnimplementedInterfacesPruning
              | none => false)
          || (unusedTypeFlag st n && !o.skipUnusedTypesPruning)
    | _ => unusedTypeFlag st n && !o.skipUnusedTypesPruning

/-- The removal set `typesToPrune` of one pass. -/
def typesToPrune (s : Schema) (o : PruneSchemaOptions) : List String :=
  (s.types.filter
      (fun p => shouldPrune (createPruningContext s) (visitTypes s) o p.1 p.2)).map Prod.fst

/-- The names of the type map. -/
def typeNames (s : Schema) : List String :=
  s.types.map Prod.fst

/-- Drop the fields whose named type was removed, and within the kept fields
the arguments whose named type was removed. -/
def pruneFields (names : List String) (fields : List Field) : List Field :=
  (fields.filter (fun f => !names.contains f.typeName)).map
    (fun f => { f with args := f.args.filter (fun a => !names.contains a) })

/-- Remove every reference to a removed type from one type definition. -/
def removeFromTypeDef (names : List String) : TypeDef → TypeDef
  | .object fields ifaces =>
      .object (pruneFields names fields) (ifaces.filter (fun i => !names.contains i))
  | .interface fields ifaces =>
      .interface (pruneFields names fields) (ifaces.filter (fun i => !names.contains i))
  | .union members => .union (members.filter (fun m => !names.contains m))
  | .inputObject fields => .inputObject (pruneFields names fields)
  | td => td

/-- Modelled from the spec: the rebuild step is `mapSchema`/`rewireTypes`
(`packages/utils/src/mapSchema.ts`), which is not under `src/`; the spec's
`rebuildExcluding(graph, namesToRemove)` (section 6) returns a new graph equal
to the input with every type whose name is in the set deleted and every
reference to a deleted type resolved by the rebuilder's policy.  The policy
here drops dangling references: fields whose named type was deleted are
removed (as scenario D of the spec requires, so that a removal can newly empty
a composite type), arguments, union members, declared interfaces and root
types naming a deleted type are removed likewise. -/
def removeTypes (s : Schema) (names : List String) : Schema :=
  { types :=
      (s.types.filter (fun p => !names.contains p.1)).map
        (fun p => (p.1, removeFromTypeDef names p.2)),
    rootTypes := s.rootTypes.filter (fun n => !names.contains n),
    directiveArgs := s.directiveArgs.filter (fun n => !names.contains n) }

/-- Nonempty filtered-out part makes the filter strictly shorter. -/
theorem filter_length_lt_of_not {α : Type} (q : α → Bool) :
    ∀ (l : List α), (∃ x, x ∈ l ∧ q x = false) → (l.filter q).length < l.length := by
  intro l
  induction l with
  | nil => rintro ⟨x, hx, _⟩; cases hx
  | cons a t ih =>
      rintro ⟨x, hx, hqx⟩
      by_cases ha : q a = true
      · have hxt : x ∈ t := by
          cases List.mem_cons.mp hx with
          | inl h => exact absurd (h ▸ ha) (by simp [hqx])
          | inr h => exact h
        have := ih ⟨x, hxt, hqx⟩
        simp [List.filter, ha]
        omega
      · have hlen := List.length_filter_le q t
        simp only [Bool.not_eq_true] at ha
        simp [List.filter, ha]
        omega

/-- A nonempty removal set is drawn from the type map, so the rebuild strictly
shrinks the type map. -/
theorem removeTypes_typesToPrune_lt (s : Schema) (o : PruneSchemaOptions)
    (h : typesToPrune s o ≠ []) :
    (removeTypes s (typesToPrune s o)).types.length < s.types.length := by
  have hx : ∃ x, x ∈ s.types ∧ (!(typesToPrune s o).contains x.1) = false := by
    obtain ⟨n, hn⟩ := List.exists_mem_of_ne_nil _ h
    unfold typesToPrune at hn
    obtain ⟨p, hp, hpn⟩ := List.mem_map.mp hn
    refine ⟨p, List.mem_of_mem_filter hp, ?_⟩
    have hmem : p.1 ∈ typesToPrune s o := by
      unfold typesToPrune
      exact List.mem_map.mpr ⟨p, hp, rfl⟩
    simp [List.contains, hmem]
  have := filter_length_lt_of_not (fun p => !(typesToPrune s o).contains p.1) s.types hx
  simpa [removeTypes] using this

/-- `pruneSchema`: one pass computes the removal set, the rebuild deletes it,
and the whole procedure reruns on the rebuilt graph until a pass removes
nothing (lines 42-103 of the source). -/
def pruneSchema (s : Schema) (o : PruneSchemaOptions) : Schema :=
  if h : typesToPrune s o = [] then removeTypes s (typesToPrune s o)
  else pruneSchema (removeTypes s (typesToPrune s o)) o
termination_by s.types.length
decreasing_by exact removeTypes_typesToPrune_lt s o h

/-- The number of passes `pruneSchema` performs. -/
def pruneIters (s : Schema) (o : PruneSchemaOptions) : Nat :=
  if h : typesToPrune s o = [] then 1
  else 1 + pruneIters (removeTypes s (typesToPrune s o)) o
termination_by s.types.length
decreasing_by exact removeTypes_typesToPrune_lt s o h

/-- A type is neither reserved nor exempted by the caller's predicate. -/
def notExempt (o : PruneSchemaOptions) (n : String) (td : TypeDef) : Bool :=
  !isReservedName n && !skipPruningApplies o n td

/-- The empty-composite rule fires: an object, input object or interface with
zero fields, with the rule's own skip flag off. -/
def emptyCompositeFires (o : PruneSchemaOptions) (n : String) (td : TypeDef) : Bool :=
  notExempt o n td
    && (match td with
        | .object fields _ => fields.isEmpty
        | .interface fields _ => fields.isEmpty
        | .inputObject fields => fields.isEmpty
        | _ => false)
    && !o.skipEmptyCompositeTypePruning

/-- The empty-union rule fires: a union with zero members, flag off. -/
def emptyUnionFires (o : PruneSchemaOptions) (n : String) (td : TypeDef) : Bool :=
  notExempt o n td
    && (match td with
        | .union members => members.isEmpty
        | _ => false)
    && !o.skipEmptyUnionPruning

/-- The unimplemented-interface rule fires: an interface whose implementations
entry is present but empty, flag off. -/
def unimplementedFires (impls : List (String × List String)) (o : PruneSchemaOptions)
    (n : String) (td : TypeDef) : Bool :=
  notExempt o n td
    && (match td with
        | .interface _ _ =>
            (match lookupImpl impls n with
             | some impl => impl.isEmpty
             | none => false)
        | _ => false)
    && !o.skipUnimplementedInterfacesPruning

/-- The unused-type rule fires: the type is still marked unused, flag off. -/
def unusedFires (st : VisitState) (o : PruneSchemaOptions) (n : String) (td : TypeDef) : Bool :=
  notExempt o n td && unusedTypeFlag st n && !o.skipUnusedTypesPruning

/-- The types removed in one pass because of the empty-composite rule. -/
def emptyCompositeSet (s : Schema) (o : PruneSchemaOptions) : List String :=
  (s.types.filter (fun p => emptyCompositeFires o p.1 p.2)).map Prod.fst

/-- The types removed in one pass because of the empty-union rule. -/
def emptyUnionSet (s : Schema) (o : PruneSchemaOptions) : List String :=
  (s.types.filter (fun p => emptyUnionFires o p.1 p.2)).map Prod.fst

/-- The types removed in one pass because of the unimplemented-interface rule. -/
def unimplementedSet (s : Schema) (o : PruneSchemaOptions) : List String :=
  (s.types.filter (fun p => unimplementedFires (createPruningContext s) o p.1 p.2)).map Prod.fst

/-- The types removed in one pass because of the unused-type rule. -/
def unusedRuleSet (s : Schema) (o : PruneSchemaOptions) : List String :=
  (s.types.filter (fun p => unusedFires (visitTypes s) o p.1 p.2)).map Prod.fst

/-- All types removed by the empty-composite rule over the whole fixed-point
run of `pruneSchema`, pass by pass. -/
def removedByEmptyCompositeRun (s : Schema) (o : PruneSchemaOptions) : List String :=
  if h : typesToPrune s o = [] then emptyCompositeSet s o
  else emptyCompositeSet s o ++ removedByEmptyCompositeRun (removeTypes s (typesToPrune s o)) o
termination_by s.types.length
decreasing_by exact removeTypes_typesToPrune_lt s o h

/-- Example graph: a root object whose single field has a reachable but empty
object type. -/
def exReach : Schema :=
  { types := [("Query", .object [⟨"f", "E", []⟩] []), ("E", .object [] [])],
    rootTypes := ["Query"],
    directiveArgs := [] }

/-- Example graph: a reachable interface with a field and zero implementers. -/
def exIface : Schema :=
  { types := [("Query", .object [⟨"f", "I", []⟩] []),
              ("I", .interface [⟨"x", "String", []⟩] []),
              ("String", .scalar)],
    rootTypes := ["Query"],
    directiveArgs := [] }

/-- Example graph: an object implementing an interface. -/
def exImpl : Schema :=
  { types := [("I", .interface [⟨"x", "String", []⟩] []),
              ("A", .object [⟨"x", "String", []⟩] ["I"]),
              ("String", .scalar)],
    rootTypes := [],
    directiveArgs := [] }

/-- Example graph: the root's only field has an empty union type, so pruning
the union (pass 1) empties the root (removed in pass 2 by a different rule). -/
def exCascade : Schema :=
  { types := [("Query", .object [⟨"f", "A", []⟩] []), ("A", .union [])],
    rootTypes := ["Query"],
    directiveArgs := [] }

/-- Options differing from the default only in `skipEmptyUnionPruning`. -/
def skipUnionOptions : PruneSchemaOptions :=
  { skipEmptyUnionPruning := true }

/-- The graph left after pass one of `exCascade`. -/
def exCascade2 : Schema :=
  { types := [("Query", .object [] [])], rootTypes := ["Query"], directiveArgs := [] }

/-- The graph left after pass two of `exCascade`. -/
def exCascade3 : Schema :=
  { types := [], rootTypes := [], directiveArgs := [] }

/-- Example graph: an unreferenced object type `B` next to a root. -/
def exSkipPred : Schema :=
  { types := [("Query", .object [⟨"f", "S", []⟩] []),
              ("S", .scalar),
              ("B", .object [⟨"x", "S", []⟩] [])],
    rootTypes := ["Query"],
    directiveArgs := [] }

/-- Options exempting the type named `B` through the caller predicate. -/
def predOptions : PruneSchemaOptions :=
  { skipPruning := some (fun n _ => n == "B") }

/-- Options differing from the default only in the unimplemented-interfaces
flag. -/
def skipUnimplOptions : PruneSchemaOptions :=
  { skipUnimplementedInterfacesPruning := true }

/-- Example graph: a reserved introspection type (an empty object, which the
empty-composite rule would otherwise remove) next to a root. -/
def exReserved : Schema :=
  { types := [("Query", .object [⟨"f", "S", []⟩] []),
              ("S", .scalar),
              ("__Intro", .object [] [])],
    rootTypes := ["Query"],
    directiveArgs := [] }

/-- Marking adds exactly one name to the visited set. -/
theorem visitedContains_markVisited (st : VisitState) (n m : String) (b : Bool) :
    visitedContains (markVisited st n b) m = ((n == m) || visitedContains st m) := by
  simp [visitedContains, markVisited]

/-- Marking records the marked name as used. -/
theorem unusedTypeFlag_markVisited_self (st : VisitState) (n : String) (b : Bool) :
    unusedTypeFlag (markVisited st n b) n = false := by
  simp [unusedTypeFlag, markVisited, List.find?_cons]

/-- Marking leaves the used-flag of every other name unchanged. -/
theorem unusedTypeFlag_markVisited_other (st : VisitState) (n m : String) (b : Bool)
    (h : (n == m) = false) :
    unusedTypeFlag (markVisited st n b) m = unusedTypeFlag st m := by
  simp [unusedTypeFlag, markVisited, List.find?_cons, h]

/-- Marking never increases the remaining traversal work. -/
theorem pendingWork_markVisited_le (impls : List (String × List String)) (st : VisitState)
    (n : String) (b : Bool) :
    ∀ l, pendingWork impls (markVisited st n b) l ≤ pendingWork impls st l := by
  intro l
  induction l with
  | nil => exact Nat.le_refl _
  | cons p rest ih =>
      simp only [pendingWork, visitedContains_markVisited]
      cases hv : visitedContains st p.1 with
      | true => simpa [hv] using ih
      | false =>
          cases hb : (n == p.1) with
          | true => simp [hb]; omega
          | false => simp [hb, hv]; omega

/-- Marking a name that is not in the type map leaves the remaining work
unchanged. -/
theorem pendingWork_markVisited_of_not_found (impls : List (String × List String))
    (st : VisitState) (n : String) (b : Bool) :
    ∀ l, findTd l n = none →
      pendingWork impls (markVisited st n b) l = pendingWork impls st l := by
  intro l
  induction l with
  | nil => intro _; rfl
  | cons p rest ih =>
      intro hf
      cases hk : (p.1 == n) with
      | true => simp [findTd, List.find?_cons, hk] at hf
      | false =>
          have hrest : findTd rest n = none := by
            simpa [findTd, List.find?_cons, hk] using hf
          have hnk : (n == p.1) = false := by
            have := (beq_eq_false_iff_ne (a := p.1) (b := n)).mp hk
            exact (beq_eq_false_iff_ne (a := n) (b := p.1)).mpr (fun hnp => this hnp.symm)
          simp only [pendingWork, visitedContains_markVisited, hnk, Bool.false_or]
          rw [ih hrest]

/-- Marking an unvisited name found in the type map removes at least that
entry's work from the remaining work. -/
theorem pendingWork_markVisited_of_found (impls : List (String × List String))
    (st : VisitState) (n : String) (b : Bool) (td : TypeDef) :
    ∀ l, visitedContains st n = false → findTd l n = some td →
      workOf impls n td + pendingWork impls (markVisited st n b) l ≤
        pendingWork impls st l := by
  intro l
  induction l with
  | nil => intro _ hf; simp [findTd] at hf
  | cons p rest ih =>
      intro hv hf
      cases hk : (p.1 == n) with
      | true =>
          have hpn : p.1 = n := beq_iff_eq.mp hk
          have htd : p.2 = td := by
            simpa [findTd, List.find?_cons, hk] using hf
          simp [pendingWork, visitedContains_markVisited, hpn, hv, htd]
          have := pendingWork_markVisited_le impls st n b rest
          omega
      | false =>
          have hrest : findTd rest n = some td := by
            simpa [findTd, List.find?_cons, hk] using hf
          have hnk : (n == p.1) = false := by
            have := (beq_eq_false_iff_ne (a := p.1) (b := n)).mp hk
            exact (beq_eq_false_iff_ne (a := n) (b := p.1)).mpr (fun hnp => this hnp.symm)
          simp only [pendingWork, visitedContains_markVisited, hnk, Bool.false_or]
          have := ih hv hrest
          omega

/-- The children pushed by one visit are bounded by that entry's work. -/
theorem children_length_le_workOf (impls : List (String × List String)) (t : VisitTask)
    (td : TypeDef) :
    (if taskIsOutput t then outputChildren impls (taskName t) td
     else inputChildren td).length ≤ workOf impls (taskName t) td := by
  cases ht : taskIsOutput t <;> simp [workOf]

/-- Fuel sufficiency: with fuel at least the pending task count plus the
remaining per-type work, the traversal loop completes (the visited set stops
re-entry, so each type map entry contributes its children at most once). -/
theorem visitList_isSome_of_le (s : Schema) (impls : List (String × List String)) :
    ∀ (fuel : Nat) (st : VisitState) (tasks : List VisitTask),
      tasks.length + pendingWork impls st s.types ≤ fuel →
      (visitList s impls fuel st tasks).isSome = true := by
  intro fuel
  induction fuel with
  | zero =>
      intro st tasks hle
      cases tasks with
      | nil => simp [visitList]
      | cons t rest => simp at hle
  | succ fuel ih =>
      intro st tasks hle
      cases tasks with
      | nil => simp [visitList]
      | cons t rest =>
          simp only [visitList]
          cases hv : visitedContains st (taskName t) with
          | true =>
              simp only [hv, if_true, Bool.true_eq_false, if_false, reduceIte]
              apply ih
              simp only [List.length_cons] at hle
              omega
          | false =>
              simp only [hv, Bool.false_eq_true, if_false, reduceIte]
              cases hlk : lookupType s (taskName t) with
              | none =>
                  simp only [hlk]
                  apply ih
                  rw [pendingWork_markVisited_of_not_found impls st (taskName t)
                    (taskIsOutput t) s.types hlk]
                  simp only [List.length_cons] at hle
                  omega
              | some td =>
                  simp only [hlk]
                  apply ih
                  have h2 := pendingWork_markVisited_of_found impls st (taskName t)
                    (taskIsOutput t) td s.types hv hlk
                  have hc := children_length_le_workOf impls t td
                  simp only [List.length_cons] at hle
                  rw [List.length_append]
                  omega

/-- The traversal of `visitTypes` never runs out of fuel. -/
theorem visitTypesRun_isSome (s : Schema) : (visitTypesRun s).isSome = true := by
  unfold visitTypesRun visitFuel
  exact visitList_isSome_of_le s (createPruningContext s) _ (initState s) (rootTasks s)
    (Nat.le_refl _)

/-- The fallible traversal computes exactly the state `visitTypes` returns. -/
theorem visitTypesRun_eq (s : Schema) : visitTypesRun s = some (visitTypes s) := by
  have h := visitTypesRun_isSome s
  cases hr : visitTypesRun s with
  | none => rw [hr] at h; simp at h
  | some st => simp [visitTypes, hr]

/-- Invariant: every name in the visited set has its unused flag false. -/
def UnusedInv (st : VisitState) : Prop :=
  ∀ n, visitedContains st n = true → unusedTypeFlag st n = false

/-- Marking preserves the invariant: the marked name's flag is set to false
together with its visited entry, other names are unaffected. -/
theorem unusedInv_markVisited (st : VisitState) (n : String) (b : Bool)
    (h : UnusedInv st) : UnusedInv (markVisited st n b) := by
  intro m hm
  rw [visitedContains_markVisited] at hm
  cases hnm : (n == m) with
  | true =>
      cases beq_iff_eq.mp hnm
      exact unusedTypeFlag_markVisited_self st n b
  | false =>
      rw [unusedTypeFlag_markVisited_other st n m b hnm]
      apply h
      simpa [hnm] using hm

/-- The traversal loop preserves the visited-implies-used invariant. -/
theorem visitList_unusedInv (s : Schema) (impls : List (String × List String)) :
    ∀ (fuel : Nat) (st : VisitState) (tasks : List VisitTask) (st' : VisitState),
      UnusedInv st → visitList s impls fuel st tasks = some st' → UnusedInv st' := by
  intro fuel
  induction fuel with
  | zero =>
      intro st tasks st' hinv heq
      cases tasks with
      | nil => simp [visitList] at heq; exact heq ▸ hinv
      | cons t rest => simp [visitList] at heq
  | succ fuel ih =>
      intro st tasks st' hinv heq
      cases tasks with
      | nil => simp [visitList] at heq; exact heq ▸ hinv
      | cons t rest =>
          simp only [visitList] at heq
          cases hv : visitedContains st (taskName t) with
          | true =>
              rw [hv] at heq
              simp only [if_true, reduceIte] at heq
              exact ih st rest st' hinv heq
          | false =>
              rw [hv] at heq
              simp only [Bool.false_eq_true, if_false, reduceIte] at heq
              cases hlk : lookupType s (taskName t) with
              | none =>
                  rw [hlk] at heq
                  exact ih _ rest st'
                    (unusedInv_markVisited st (taskName t) (taskIsOutput t) hinv) heq
              | some td =>
                  rw [hlk] at heq
                  exact ih _ _ st'
                    (unusedInv_markVisited st (taskName t) (taskIsOutput t) hinv) heq

/-- After the marking pass of `visitTypes`, every visited name is used. -/
theorem visitTypes_unusedInv (s : Schema) : UnusedInv (visitTypes s) := by
  have hinit : UnusedInv (initState s) := by
    intro n h
    simp [visitedContains, initState] at h
  exact visitList_unusedInv s (createPruningContext s) (visitFuel s) (initState s)
    (rootTasks s) (visitTypes s) hinit (visitTypesRun_eq s)

/-- Invariant: the visited set holds each name at most once. -/
def VisitedKeysNodup (st : VisitState) : Prop :=
  (st.visited.map Prod.fst).Nodup

/-- Marking an unvisited name keeps the visited keys distinct. -/
theorem visitedKeysNodup_markVisited (st : VisitState) (n : String) (b : Bool)
    (hv : visitedContains st n = false) (h : VisitedKeysNodup st) :
    VisitedKeysNodup (markVisited st n b) := by
  unfold VisitedKeysNodup markVisited
  simp only [List.map_cons]
  refine List.nodup_cons.mpr ⟨?_, h⟩
  intro hmem
  obtain ⟨p, hp, hpn⟩ := List.mem_map.mp hmem
  have : visitedContains st n = true := by
    unfold visitedContains
    exact List.any_eq_true.mpr ⟨p, hp, by simp [hpn]⟩
  simp [this] at hv

/-- The traversal loop preserves distinctness of the visited keys: the guard
checks the shared visited set before marking, so no name is marked twice. -/
theorem visitList_visitedKeysNodup (s : Schema) (impls : List (String × List String)) :
    ∀ (fuel : Nat) (st : VisitState) (tasks : List VisitTask) (st' : VisitState),
      VisitedKeysNodup st → visitList s impls fuel st tasks = some st' →
      VisitedKeysNodup st' := by
  intro fuel
  induction fuel with
  | zero =>
      intro st tasks st' hinv heq
      cases tasks with
      | nil => simp [visitList] at heq; exact heq ▸ hinv
      | cons t rest => simp [visitList] at heq
  | succ fuel ih =>
      intro st tasks st' hinv heq
      cases tasks with
      | nil => simp [visitList] at heq; exact heq ▸ hinv
      | cons t rest =>
          simp only [visitList] at heq
          cases hv : visitedContains st (taskName t) with
          | true =>
              rw [hv] at heq
              simp only [if_true, reduceIte] at heq
              exact ih st rest st' hinv heq
          | false =>
              rw [hv] at heq
              simp only [Bool.false_eq_true, if_false, reduceIte] at heq
              cases hlk : lookupType s (taskName t) with
              | none =>
                  rw [hlk] at heq
                  exact ih _ rest st'
                    (visitedKeysNodup_markVisited st (taskName t) (taskIsOutput t) hv hinv) heq
              | some td =>
                  rw [hlk] at heq
                  exact ih _ _ st'
                    (visitedKeysNodup_markVisited st (taskName t) (taskIsOutput t) hv hinv) heq

/-- After the marking pass, the visited set holds each name at most once. -/
theorem visitTypes_visitedKeysNodup (s : Schema) : VisitedKeysNodup (visitTypes s) := by
  have hinit : VisitedKeysNodup (initState s) := by
    simp [VisitedKeysNodup, initState]
  exact visitList_visitedKeysNodup s (createPruningContext s) (visitFuel s) (initState s)
    (rootTasks s) (visitTypes s) hinit (visitTypesRun_eq s)

/-- In a list with distinct keys, a key determines its value. -/
theorem value_eq_of_keysNodup {l : List (String × Bool)}
    (h : (l.map Prod.fst).Nodup) (n : String) (b b' : Bool)
    (h1 : (n, b) ∈ l) (h2 : (n, b') ∈ l) : b = b' := by
  induction l with
  | nil => cases h1
  | cons p rest ih =>
      simp only [List.map_cons, List.nodup_cons] at h
      cases List.mem_cons.mp h1 with
      | inl e1 =>
          cases List.mem_cons.mp h2 with
          | inl e2 => exact congrArg Prod.snd (e1.trans e2.symm)
          | inr m2 =>
              exfalso
              apply h.1
              rw [← e1]
              exact List.mem_map.mpr ⟨(n, b'), m2, rfl⟩
      | inr m1 =>
          cases List.mem_cons.mp h2 with
          | inl e2 =>
              exfalso
              apply h.1
              rw [← e2]
              exact List.mem_map.mpr ⟨(n, b), m1, rfl⟩
          | inr m2 => exact ih h.2 m1 m2

/-- Removing no types keeps every field and argument. -/
theorem pruneFields_nil (fields : List Field) : pruneFields [] fields = fields := by
  induction fields with
  | nil => rfl
  | cons f rest ih =>
      obtain ⟨nm, tn, ar⟩ := f
      simp only [pruneFields, List.filter_cons, List.contains_nil, Bool.not_false, if_true,
        List.map_cons, List.filter_true] at ih ⊢
      rw [ih]

/-- Removing no types leaves a type definition unchanged. -/
theorem removeFromTypeDef_nil (td : TypeDef) : removeFromTypeDef [] td = td := by
  cases td <;> simp [removeFromTypeDef, pruneFields_nil, List.filter_true]

/-- The rebuild with an empty removal set returns the graph unchanged. -/
theorem removeTypes_nil (s : Schema) : removeTypes s [] = s := by
  obtain ⟨types, roots, dirs⟩ := s
  simp only [removeTypes, List.contains_nil, Bool.not_false, List.filter_true]
  have htypes : List.map (fun p => (p.1, removeFromTypeDef [] p.2)) types = types := by
    induction types with
    | nil => rfl
    | cons p rest ih => simp [removeFromTypeDef_nil, ih]
  rw [htypes]

/-- When a pass selects nothing, `pruneSchema` returns the rebuilt (unchanged)
graph. -/
theorem pruneSchema_of_empty (s : Schema) (o : PruneSchemaOptions)
    (h : typesToPrune s o = []) : pruneSchema s o = s := by
  rw [pruneSchema, dif_pos h, h]
  exact removeTypes_nil s

/-- When a pass selects something, `pruneSchema` recurses on the rebuilt
graph. -/
theorem pruneSchema_of_nonempty (s : Schema) (o : PruneSchemaOptions)
    (h : ¬ typesToPrune s o = []) :
    pruneSchema s o = pruneSchema (removeTypes s (typesToPrune s o)) o := by
  rw [pruneSchema]
  exact dif_neg h

/-- The graph `pruneSchema` returns is stable: one more pass selects nothing. -/
theorem typesToPrune_pruneSchema_aux :
    ∀ (k : Nat) (s : Schema) (o : PruneSchemaOptions), s.types.length ≤ k →
      typesToPrune (pruneSchema s o) o = [] := by
  intro k
  induction k with
  | zero =>
      intro s o hle
      have hempty : s.types = [] := List.eq_nil_of_length_eq_zero (Nat.le_zero.mp hle)
      have htp : typesToPrune s o = [] := by
        unfold typesToPrune
        rw [hempty]
        rfl
      rw [pruneSchema_of_empty s o htp]
      exact htp
  | succ k ih =>
      intro s o hle
      by_cases htp : typesToPrune s o = []
      · rw [pruneSchema_of_empty s o htp]
        exact htp
      · rw [pruneSchema_of_nonempty s o htp]
        apply ih
        have := removeTypes_typesToPrune_lt s o htp
        omega

/-- The pruned graph is a fixed point of `pruneSchema` itself. -/
theorem pruneSchema_fixed (s : Schema) (o : PruneSchemaOptions) :
    pruneSchema (pruneSchema s o) o = pruneSchema s o :=
  pruneSchema_of_empty (pruneSchema s o) o
    (typesToPrune_pruneSchema_aux s.types.length s o (Nat.le_refl _))

/-- The rebuild never adds a type name. -/
theorem typeNames_removeTypes_subset (s : Schema) (names : List String) (n : String)
    (hn : n ∈ typeNames (removeTypes s names)) : n ∈ typeNames s := by
  unfold typeNames at hn ⊢
  unfold removeTypes at hn
  simp only [List.map_map] at hn
  obtain ⟨p, hp, hpn⟩ := List.mem_map.mp hn
  refine List.mem_map.mpr ⟨p, List.mem_of_mem_filter hp, ?_⟩
  simpa using hpn

/-- An empty type map selects nothing. -/
theorem typesToPrune_of_types_nil (s : Schema) (o : PruneSchemaOptions)
    (h : s.types = []) : typesToPrune s o = [] := by
  unfold typesToPrune
  rw [h]
  rfl

/-- The fixed-point loop only ever deletes type names. -/
theorem typeNames_pruneSchema_subset_aux :
    ∀ (k : Nat) (s : Schema) (o : PruneSchemaOptions), s.types.length ≤ k →
      ∀ n, n ∈ typeNames (pruneSchema s o) → n ∈ typeNames s := by
  intro k
  induction k with
  | zero =>
      intro s o hle n hn
      have hempty : s.types = [] := List.eq_nil_of_length_eq_zero (Nat.le_zero.mp hle)
      rwa [pruneSchema_of_empty s o (typesToPrune_of_types_nil s o hempty)] at hn
  | succ k ih =>
      intro s o hle n hn
      by_cases htp : typesToPrune s o = []
      · rwa [pruneSchema_of_empty s o htp] at hn
      · rw [pruneSchema_of_nonempty s o htp] at hn
        have hlt := removeTypes_typesToPrune_lt s o htp
        have hmid := ih (removeTypes s (typesToPrune s o)) o (by omega) n hn
        exact typeNames_removeTypes_subset s (typesToPrune s o) n hmid

/-- `pruneIters` of a stable pass is one. -/
theorem pruneIters_of_empty (s : Schema) (o : PruneSchemaOptions)
    (h : typesToPrune s o = []) : pruneIters s o = 1 := by
  rw [pruneIters]
  exact dif_pos h

/-- `pruneIters` of a shrinking pass counts the recursion. -/
theorem pruneIters_of_nonempty (s : Schema) (o : PruneSchemaOptions)
    (h : ¬ typesToPrune s o = []) :
    pruneIters s o = 1 + pruneIters (removeTypes s (typesToPrune s o)) o := by
  rw [pruneIters]
  exact dif_neg h

/-- Every pass but the last removes at least one type, so the number of passes
is at most the type count plus one. -/
theorem pruneIters_le_aux :
    ∀ (k : Nat) (s : Schema) (o : PruneSchemaOptions), s.types.length ≤ k →
      pruneIters s o ≤ s.types.length + 1 := by
  intro k
  induction k with
  | zero =>
      intro s o hle
      have hempty : s.types = [] := List.eq_nil_of_length_eq_zero (Nat.le_zero.mp hle)
      rw [pruneIters_of_empty s o (typesToPrune_of_types_nil s o hempty)]
      omega
  | succ k ih =>
      intro s o hle
      by_cases htp : typesToPrune s o = []
      · rw [pruneIters_of_empty s o htp]
        omega
      · rw [pruneIters_of_nonempty s o htp]
        have hlt := removeTypes_typesToPrune_lt s o htp
        have := ih (removeTypes s (typesToPrune s o)) o (by omega)
        omega

/-- A type whose removal decision is positive while its unused flag is false
was selected by one of the emptiness rules. -/
theorem shouldPrune_decompose (impls : List (String × List String)) (st : VisitState)
    (o : PruneSchemaOptions) (n : String) (td : TypeDef)
    (hp : shouldPrune impls st o n td = true) (hu : unusedTypeFlag st n = false) :
    emptyCompositeFires o n td = true ∨ emptyUnionFires o n td = true ∨
      unimplementedFires impls o n td = true := by
  unfold shouldPrune at hp
  cases hs : isReservedName n with
  | true => simp [hs] at hp
  | false =>
  cases hsp : skipPruningApplies o n td with
  | true => simp [hs, hsp] at hp
  | false =>
  simp only [hs, hsp, Bool.false_eq_true, if_false, reduceIte] at hp
  cases td with
  | scalar => simp [hu] at hp
  | enum => simp [hu] at hp
  | object fields ifaces =>
      left
      simp only [hu, Bool.false_and, Bool.or_false] at hp
      simp [emptyCompositeFires, notExempt, hs, hsp, hp]
  | inputObject fields =>
      left
      simp only [hu, Bool.false_and, Bool.or_false] at hp
      simp [emptyCompositeFires, notExempt, hs, hsp, hp]
  | union members =>
      right; left
      simp only [hu, Bool.false_and, Bool.or_false] at hp
      simp [emptyUnionFires, notExempt, hs, hsp, hp]
  | interface fields ifaces =>
      simp only [hu, Bool.false_and, Bool.or_false, Bool.or_eq_true] at hp
      cases hp with
      | inl h1 =>
          left
          simp [emptyCompositeFires, notExempt, hs, hsp, h1]
      | inr h2 =>
          right; right
          unfold unimplementedFires notExempt
          cases hlk : lookupImpl impls n with
          | none => rw [hlk] at h2; simp at h2
          | some impl =>
              rw [hlk] at h2
              simp only [Bool.and_eq_true] at h2
              simp [hs, hsp, hlk, h2.1, h2.2]

/-- The index has an entry under a key. -/
def hasKey (impls : List (String × List String)) (k : String) : Prop :=
  ∃ p, p ∈ impls ∧ p.1 = k

/-- Entry presence is what `getImplementations` observes. -/
theorem lookupImpl_isSome_iff_hasKey (impls : List (String × List String)) (k : String) :
    (lookupImpl impls k).isSome = true ↔ hasKey impls k := by
  unfold lookupImpl hasKey
  rw [Option.isSome_map']
  rw [List.find?_isSome]
  constructor
  · rintro ⟨p, hp, hpk⟩
    exact ⟨p, hp, beq_iff_eq.mp hpk⟩
  · rintro ⟨p, hp, hpk⟩
    exact ⟨p, hp, beq_iff_eq.mpr hpk⟩

/-- One index assignment creates or extends exactly the assigned key. -/
theorem hasKey_addImplementation (impls : List (String × List String)) (i t k : String) :
    hasKey (addImplementation impls i t) k ↔ (k = i ∨ hasKey impls k) := by
  unfold addImplementation
  cases hlk : lookupImpl impls i with
  | none =>
      constructor
      · rintro ⟨p, hp, hpk⟩
        rcases List.mem_append.mp hp with hmem | hmem
        · exact Or.inr ⟨p, hmem, hpk⟩
        · left
          simp only [List.mem_singleton] at hmem
          rw [hmem] at hpk
          exact hpk.symm
      · rintro (hk | ⟨p, hp, hpk⟩)
        · exact ⟨(i, [t]), List.mem_append.mpr (Or.inr (List.mem_singleton.mpr rfl)), hk.symm⟩
        · exact ⟨p, List.mem_append.mpr (Or.inl hp), hpk⟩
  | some l =>
      constructor
      · rintro ⟨p, hp, hpk⟩
        obtain ⟨q, hq, hgq⟩ := List.mem_map.mp hp
        right
        refine ⟨q, hq, ?_⟩
        rw [← hpk]
        by_cases hqi : (q.1 == i) = true
        · rw [← hgq]; simp [hqi]
        · rw [← hgq]; simp [hqi]
      · rintro (hk | ⟨p, hp, hpk⟩)
        · have hsome : (lookupImpl impls i).isSome = true := by rw [hlk]; rfl
          obtain ⟨q, hq, hqi⟩ := (lookupImpl_isSome_iff_hasKey impls i).mp hsome
          refine ⟨if (q.1 == i) = true then (q.1, if q.2.contains t then q.2 else q.2 ++ [t])
            else q, List.mem_map.mpr ⟨q, hq, rfl⟩, ?_⟩
          simp [beq_iff_eq.mpr hqi, hqi, hk]
        · refine ⟨if (p.1 == i) = true then (p.1, if p.2.contains t then p.2 else p.2 ++ [t])
            else p, List.mem_map.mpr ⟨p, hp, rfl⟩, ?_⟩
          have hfst :
              (if (p.1 == i) = true then (p.1, if p.2.contains t then p.2 else p.2 ++ [t])
                else p).1 = p.1 := by
            by_cases hpi : (p.1 == i) = true <;> simp [hpi]
          rw [hfst, hpk]

/-- Folding the declared interfaces of one type adds exactly those keys. -/
theorem hasKey_foldIfaces (tname k : String) :
    ∀ (ifaces : List String) (impls : List (String × List String)),
      hasKey (ifaces.foldl (fun acc iface => addImplementation acc iface tname) impls) k ↔
        (k ∈ ifaces ∨ hasKey impls k) := by
  intro ifaces
  induction ifaces with
  | nil => intro impls; simp
  | cons i rest ih =>
      intro impls
      rw [List.foldl_cons, ih (addImplementation impls i tname), hasKey_addImplementation]
      constructor
      · rintro (h | h | h)
        · exact Or.inl (List.mem_cons.mpr (Or.inr h))
        · exact Or.inl (List.mem_cons.mpr (Or.inl h))
        · exact Or.inr h
      · rintro (h | h)
        · rcases List.mem_cons.mp h with h | h
          · exact Or.inr (Or.inl h)
          · exact Or.inl h
        · exact Or.inr (Or.inr h)

/-- Scanning the whole type map adds exactly the declared interface names. -/
theorem hasKey_scan (k : String) :
    ∀ (l : List (String × TypeDef)) (impls : List (String × List String)),
      hasKey (l.foldl
        (fun impls p =>
          match getInterfacesOf p.2 with
          | none => impls
          | some ifaces => ifaces.foldl (fun acc iface => addImplementation acc iface p.1) impls)
        impls) k ↔
      ((∃ q, q ∈ l ∧ k ∈ (getInterfacesOf q.2).getD []) ∨ hasKey impls k) := by
  intro l
  induction l with
  | nil =>
      intro impls
      simp
  | cons p rest ih =>
      intro impls
      rw [List.foldl_cons]
      cases hgi : getInterfacesOf p.2 with
      | none =>
          simp only [hgi]
          rw [ih impls]
          constructor
          · rintro (⟨q, hq, hk⟩ | h)
            · exact Or.inl ⟨q, List.mem_cons.mpr (Or.inr hq), hk⟩
            · exact Or.inr h
          · rintro (⟨q, hq, hk⟩ | h)
            · rcases List.mem_cons.mp hq with hq | hq
              · rw [hq, hgi] at hk; simp at hk
              · exact Or.inl ⟨q, hq, hk⟩
            · exact Or.inr h
      | some ifaces =>
          simp only [hgi]
          rw [ih _, hasKey_foldIfaces]
          constructor
          · rintro (⟨q, hq, hk⟩ | h | h)
            · exact Or.inl ⟨q, List.mem_cons.mpr (Or.inr hq), hk⟩
            · exact Or.inl ⟨p, List.mem_cons.mpr (Or.inl rfl), by rw [hgi]; exact h⟩
            · exact Or.inr h
          · rintro (⟨q, hq, hk⟩ | h)
            · rcases List.mem_cons.mp hq with hq | hq
              · right; left; rw [hq, hgi] at hk; exact hk
              · exact Or.inl ⟨q, hq, hk⟩
            · exact Or.inr (Or.inr h)

/-- An interface name has an index entry exactly when some type in the graph
declares implementing it. -/
theorem hasKey_createPruningContext (s : Schema) (k : String) :
    hasKey (createPruningContext s) k ↔
      ∃ q, q ∈ s.types ∧ k ∈ (getInterfacesOf q.2).getD [] := by
  unfold createPruningContext
  rw [hasKey_scan k s.types []]
  simp [hasKey]

/-- Every index entry is nonempty. -/
def ImplInv (impls : List (String × List String)) : Prop :=
  ∀ p, p ∈ impls → p.2 ≠ []

/-- One assignment keeps every entry nonempty (a created entry immediately
receives its member). -/
theorem implInv_addImplementation (impls : List (String × List String)) (i t : String)
    (h : ImplInv impls) : ImplInv (addImplementation impls i t) := by
  unfold addImplementation
  cases hlk : lookupImpl impls i with
  | none =>
      intro p hp
      rcases List.mem_append.mp hp with hmem | hmem
      · exact h p hmem
      · simp only [List.mem_singleton] at hmem
        rw [hmem]
        simp
  | some l =>
      intro p hp
      obtain ⟨q, hq, hgq⟩ := List.mem_map.mp hp
      by_cases hqi : (q.1 == i) = true
      · rw [← hgq]
        simp only [hqi, if_true, reduceIte]
        by_cases hc : q.2.contains t = true
        · simp only [hc, if_true, reduceIte]
          exact h q hq
        · simp only [hc, Bool.false_eq_true, if_false, reduceIte]
          simp
      · rw [← hgq]
        simp only [hqi, Bool.false_eq_true, if_false, reduceIte]
        exact h q hq

/-- Folding one type's interfaces keeps every entry nonempty. -/
theorem implInv_foldIfaces (tname : String) :
    ∀ (ifaces : List String) (impls : List (String × List String)),
      ImplInv impls →
      ImplInv (ifaces.foldl (fun acc iface => addImplementation acc iface tname) impls) := by
  intro ifaces
  induction ifaces with
  | nil => intro impls h; exact h
  | cons i rest ih =>
      intro impls h
      rw [List.foldl_cons]
      exact ih _ (implInv_addImplementation impls i tname h)

/-- The index built by `createPruningContext` has no empty entry. -/
theorem implInv_createPruningContext (s : Schema) : ImplInv (createPruningContext s) := by
  unfold createPruningContext
  have hgen : ∀ (l : List (String × TypeDef)) (impls : List (String × List String)),
      ImplInv impls →
      ImplInv (l.foldl
        (fun impls p =>
          match getInterfacesOf p.2 with
          | none => impls
          | some ifaces => ifaces.foldl (fun acc iface => addImplementation acc iface p.1) impls)
        impls) := by
    intro l
    induction l with
    | nil => intro impls h; exact h
    | cons p rest ih =>
        intro impls h
        rw [List.foldl_cons]
        cases hgi : getInterfacesOf p.2 with
        | none => simp only [hgi]; exact ih impls h
        | some ifaces => simp only [hgi]; exact ih _ (implInv_foldIfaces p.1 ifaces impls h)
  exact hgen s.types [] (by intro p hp; cases hp)

/-- Accumulated-run unfolding for a stable pass. -/
theorem removedByEmptyCompositeRun_of_empty (s : Schema) (o : PruneSchemaOptions)
    (h : typesToPrune s o = []) :
    removedByEmptyCompositeRun s o = emptyCompositeSet s o := by
  rw [removedByEmptyCompositeRun]
  exact dif_pos h

/-- Accumulated-run unfolding for a shrinking pass. -/
theorem removedByEmptyCompositeRun_of_nonempty (s : Schema) (o : PruneSchemaOptions)
    (h : ¬ typesToPrune s o = []) :
    removedByEmptyCompositeRun s o =
      emptyCompositeSet s o ++
        removedByEmptyCompositeRun (removeTypes s (typesToPrune s o)) o := by
  rw [removedByEmptyCompositeRun]
  exact dif_neg h

/-- The empty-composite rule's per-pass set depends only on the graph, the
caller predicate and its own flag. -/
theorem emptyCompositeSet_congr (s : Schema) (o o' : PruneSchemaOptions)
    (hp : o.skipPruning = o'.skipPruning)
    (hf : o.skipEmptyCompositeTypePruning = o'.skipEmptyCompositeTypePruning) :
    emptyCompositeSet s o = emptyCompositeSet s o' := by
  unfold emptyCompositeSet emptyCompositeFires notExempt skipPruningApplies
  rw [hp, hf]

/-- The empty-union rule's per-pass set depends only on the graph, the caller
predicate and its own flag. -/
theorem emptyUnionSet_congr (s : Schema) (o o' : PruneSchemaOptions)
    (hp : o.skipPruning = o'.skipPruning)
    (hf : o.skipEmptyUnionPruning = o'.skipEmptyUnionPruning) :
    emptyUnionSet s o = emptyUnionSet s o' := by
  unfold emptyUnionSet emptyUnionFires notExempt skipPruningApplies
  rw [hp, hf]

/-- The unimplemented-interface rule's per-pass set depends only on the graph,
the caller predicate and its own flag. -/
theorem unimplementedSet_congr (s : Schema) (o o' : PruneSchemaOptions)
    (hp : o.skipPruning = o'.skipPruning)
    (hf : o.skipUnimplementedInterfacesPruning = o'.skipUnimplementedInterfacesPruning) :
    unimplementedSet s o = unimplementedSet s o' := by
  unfold unimplementedSet unimplementedFires notExempt skipPruningApplies
  rw [hp, hf]

/-- The unused-type rule's per-pass set depends only on the graph, the caller
predicate and its own flag. -/
theorem unusedRuleSet_congr (s : Schema) (o o' : PruneSchemaOptions)
    (hp : o.skipPruning = o'.skipPruning)
    (hf : o.skipUnusedTypesPruning = o'.skipUnusedTypesPruning) :
    unusedRuleSet s o = unusedRuleSet s o' := by
  unfold unusedRuleSet unusedFires notExempt skipPruningApplies
  rw [hp, hf]

/-- C1 counterexample: in `exReach` the type `E` is reachable from the root
(it is visited and marked used by the traversal) and is nevertheless in the
removal set of the first pass under the default configuration, because it is
an empty object type. -/
theorem reachable_type_in_removal_set :
    visitedContains (visitTypes exReach) "E" = true ∧
    "E" ∈ typesToPrune exReach defaultOptions :=
  ⟨by decide, by decide⟩

/-- C1 (amended): every type visited by the traversal is marked used, so the
unused-type rule never fires on it; when a visited type is in the removal set
it was selected by the empty-composite, empty-union or unimplemented-interface
rule. -/
theorem reachable_marked_used_not_unused_pruned (s : Schema) (o : PruneSchemaOptions)
    (n : String) (h : visitedContains (visitTypes s) n = true) :
    unusedTypeFlag (visitTypes s) n = false ∧
      (n ∈ typesToPrune s o →
        n ∈ emptyCompositeSet s o ∨ n ∈ emptyUnionSet s o ∨ n ∈ unimplementedSet s o) := by
  have hu := visitTypes_unusedInv s n h
  refine ⟨hu, ?_⟩
  intro hmem
  unfold typesToPrune at hmem
  obtain ⟨p, hp, hpn⟩ := List.mem_map.mp hmem
  have hspr : shouldPrune (createPruningContext s) (visitTypes s) o p.1 p.2 = true :=
    (List.mem_filter.mp hp).2
  have hup : unusedTypeFlag (visitTypes s) p.1 = false := by rw [hpn]; exact hu
  rcases shouldPrune_decompose (createPruningContext s) (visitTypes s) o p.1 p.2 hspr hup
    with h1 | h2 | h3
  · left
    unfold emptyCompositeSet
    exact List.mem_map.mpr ⟨p, List.mem_filter.mpr ⟨List.mem_of_mem_filter hp, h1⟩, hpn⟩
  · right; left
    unfold emptyUnionSet
    exact List.mem_map.mpr ⟨p, List.mem_filter.mpr ⟨List.mem_of_mem_filter hp, h2⟩, hpn⟩
  · right; right
    unfold unimplementedSet
    exact List.mem_map.mpr ⟨p, List.mem_filter.mpr ⟨List.mem_of_mem_filter hp, h3⟩, hpn⟩

/-- C1 witness: the amended theorem applied to the reachable interface `I` of
`exIface` under the default configuration. -/
theorem reachable_marked_used_not_unused_pruned_witness :
    visitedContains (visitTypes exIface) "I" = true ∧
      (unusedTypeFlag (visitTypes exIface) "I" = false ∧
        ("I" ∈ typesToPrune exIface defaultOptions →
          "I" ∈ emptyCompositeSet exIface defaultOptions ∨
          "I" ∈ emptyUnionSet exIface defaultOptions ∨
          "I" ∈ unimplementedSet exIface defaultOptions)) :=
  ⟨by decide, reachable_marked_used_not_unused_pruned exIface defaultOptions "I" (by decide)⟩

/-- C2: in `exIface` the interface `I` has a field and zero implementers; its
implementation-index entry is absent (not present-and-empty, because
`createPruningContext` creates an entry only together with its first member),
so the unimplemented-interface disjunct never fires and `pruneSchema` retains
`I` under the default configuration — the claim says the default removes it. -/
theorem unimplemented_interface_retained :
    lookupImpl (createPruningContext exIface) "I" = none ∧
    typesToPrune exIface defaultOptions = [] ∧
    typesToPrune exIface skipUnimplOptions = [] ∧
    "I" ∈ typeNames (pruneSchema exIface defaultOptions) := by
  refine ⟨by decide, by decide, by decide, ?_⟩
  rw [pruneSchema_of_empty exIface defaultOptions (by decide)]
  decide

/-- C3: after `createPruningContext`, an interface name has an index entry if
and only if some type of the graph declares implementing it, and every present
entry is nonempty — the present-but-empty state never occurs within a pass. -/
theorem implementation_index_entry_iff_declared (s : Schema) (k : String) :
    ((lookupImpl (createPruningContext s) k).isSome = true ↔
      ∃ q, q ∈ s.types ∧ k ∈ (getInterfacesOf q.2).getD []) ∧
    (∀ l, lookupImpl (createPruningContext s) k = some l → l ≠ []) := by
  constructor
  · rw [lookupImpl_isSome_iff_hasKey]
    exact hasKey_createPruningContext s k
  · intro l hl
    unfold lookupImpl at hl
    cases hf : (createPruningContext s).find? (fun p => p.1 == k) with
    | none => rw [hf] at hl; cases hl
    | some p =>
        rw [hf] at hl
        simp only [Option.map_some'] at hl
        injection hl with h2
        rw [← h2]
        exact implInv_createPruningContext s p (List.mem_of_find?_eq_some hf)

/-- C3 witness: the index of `exImpl` has the nonempty entry `I -> [A]`. -/
theorem implementation_index_entry_iff_declared_witness :
    (lookupImpl (createPruningContext exImpl) "I").isSome = true ∧
    (["A"] : List String) ≠ [] :=
  ⟨(implementation_index_entry_iff_declared exImpl "I").1.mpr
    ⟨("A", TypeDef.object [⟨"x", "String", []⟩] ["I"]), by decide, by decide⟩,
   (implementation_index_entry_iff_declared exImpl "I").2 ["A"] (by decide)⟩

/-- C4: pruning an already-pruned graph with the same configuration yields an
identical type-name set — the output of `pruneSchema` is a fixed point. -/
theorem pruneSchema_idempotent_on_type_names (s : Schema) (o : PruneSchemaOptions) :
    typeNames (pruneSchema (pruneSchema s o) o) = typeNames (pruneSchema s o) := by
  rw [pruneSchema_fixed]

/-- C5: the type-name set of the output of `pruneSchema` is a subset of the
input's, and a single rebuild of the loop never adds a type name. -/
theorem pruneSchema_type_names_shrink (s : Schema) (o : PruneSchemaOptions)
    (names : List String) (n : String) :
    (n ∈ typeNames (pruneSchema s o) → n ∈ typeNames s) ∧
    (n ∈ typeNames (removeTypes s names) → n ∈ typeNames s) :=
  ⟨typeNames_pruneSchema_subset_aux s.types.length s o (Nat.le_refl _) n,
   typeNames_removeTypes_subset s names n⟩

/-- C5 witness: the subset facts applied to `exIface` (a stable graph) and to
the first rebuild of `exCascade`. -/
theorem pruneSchema_type_names_shrink_witness :
    "Query" ∈ typeNames exIface ∧ "Query" ∈ typeNames exCascade :=
  ⟨(pruneSchema_type_names_shrink exIface defaultOptions [] "Query").1
      (by rw [pruneSchema_of_empty exIface defaultOptions (by decide)]; decide),
   (pruneSchema_type_names_shrink exCascade defaultOptions ["A"] "Query").2 (by decide)⟩

/-- C6: the per-pass traversal terminates (its fuel, sized by the visited-set
argument, is never exhausted: re-entry is stopped by the shared visited set),
and the outer fixed-point loop converges within the number of types plus one
passes, because every pass but the last removes at least one type. -/
theorem pruneSchema_terminates (s : Schema) (o : PruneSchemaOptions) :
    (visitTypesRun s).isSome = true ∧ pruneIters s o ≤ s.types.length + 1 :=
  ⟨visitTypesRun_isSome s, pruneIters_le_aux s.types.length s o (Nat.le_refl _)⟩

/-- C7 counterexample: over the whole fixed-point run of `exCascade`, the two
configurations agree on every flag except `skipEmptyUnionPruning`, yet the
types removed by the empty-composite rule differ (`Query` is removed only when
the union pruning is on, because removing the union empties the root in pass
two). -/
theorem toggling_union_flag_changes_empty_composite_removals :
    defaultOptions.skipEmptyCompositeTypePruning =
        skipUnionOptions.skipEmptyCompositeTypePruning ∧
    defaultOptions.skipUnusedTypesPruning = skipUnionOptions.skipUnusedTypesPruning ∧
    defaultOptions.skipUnimplementedInterfacesPruning =
        skipUnionOptions.skipUnimplementedInterfacesPruning ∧
    defaultOptions.skipPruning = skipUnionOptions.skipPruning ∧
    removedByEmptyCompositeRun exCascade defaultOptions = ["Query"] ∧
    removedByEmptyCompositeRun exCascade skipUnionOptions = [] := by
  refine ⟨rfl, rfl, rfl, rfl, ?_, ?_⟩
  · rw [removedByEmptyCompositeRun_of_nonempty exCascade defaultOptions (by decide)]
    have h2 : removeTypes exCascade (typesToPrune exCascade defaultOptions) = exCascade2 := by
      decide
    rw [h2]
    rw [removedByEmptyCompositeRun_of_nonempty exCascade2 defaultOptions (by decide)]
    have h3 : removeTypes exCascade2 (typesToPrune exCascade2 defaultOptions) = exCascade3 := by
      decide
    rw [h3]
    rw [removedByEmptyCompositeRun_of_empty exCascade3 defaultOptions (by decide)]
    decide
  · rw [removedByEmptyCompositeRun_of_empty exCascade skipUnionOptions (by decide)]
    decide

/-- C7 (amended): within a single pass on a fixed graph, each category rule's
removal set depends only on the graph, the caller predicate and that rule's
own flag, so toggling a different flag leaves it unchanged; across passes the
independence fails, as the counterexample shows, because earlier removals
change the graph later passes see. -/
theorem rule_sets_depend_only_on_own_flag (s : Schema) (o o' : PruneSchemaOptions)
    (hp : o.skipPruning = o'.skipPruning) :
    (o.skipEmptyCompositeTypePruning = o'.skipEmptyCompositeTypePruning →
      emptyCompositeSet s o = emptyCompositeSet s o') ∧
    (o.skipEmptyUnionPruning = o'.skipEmptyUnionPruning →
      emptyUnionSet s o = emptyUnionSet s o') ∧
    (o.skipUnimplementedInterfacesPruning = o'.skipUnimplementedInterfacesPruning →
      unimplementedSet s o = unimplementedSet s o') ∧
    (o.skipUnusedTypesPruning = o'.skipUnusedTypesPruning →
      unusedRuleSet s o = unusedRuleSet s o') :=
  ⟨emptyCompositeSet_congr s o o' hp, emptyUnionSet_congr s o o' hp,
   unimplementedSet_congr s o o' hp, unusedRuleSet_congr s o o' hp⟩

/-- C7 witness: the amended theorem applied to the two configurations of the
counterexample, which share the caller predicate and the empty-composite flag. -/
theorem rule_sets_depend_only_on_own_flag_witness :
    emptyCompositeSet exCascade defaultOptions = emptyCompositeSet exCascade skipUnionOptions :=
  (rule_sets_depend_only_on_own_flag exCascade defaultOptions skipUnionOptions rfl).1 rfl

/-- C8: a type whose name carries the reserved introspection prefix is never
in the removal set of a pass, and the unused-type analysis never registers it
as unused. -/
theorem reserved_names_never_pruned (s : Schema) (o : PruneSchemaOptions) (n : String)
    (h : isReservedName n = true) :
    n ∉ typesToPrune s o ∧ ∀ b, (n, b) ∉ initUnused s := by
  constructor
  · intro hmem
    unfold typesToPrune at hmem
    obtain ⟨p, hp, hpn⟩ := List.mem_map.mp hmem
    have hspr : shouldPrune (createPruningContext s) (visitTypes s) o p.1 p.2 = true :=
      (List.mem_filter.mp hp).2
    unfold shouldPrune at hspr
    rw [hpn] at hspr
    simp [h] at hspr
  · intro b hmem
    unfold initUnused at hmem
    obtain ⟨m, hm, hsome⟩ := List.mem_filterMap.mp hmem
    by_cases hr : isReservedName m = true
    · rw [if_pos hr] at hsome
      cases hsome
    · rw [if_neg hr] at hsome
      simp only [Option.some.injEq, Prod.mk.injEq] at hsome
      rw [hsome.1] at hr
      exact hr h

/-- C8 witness: the reserved name `__Intro` of `exReserved` is exempt. -/
theorem reserved_names_never_pruned_witness :
    isReservedName "__Intro" = true ∧
      ("__Intro" ∉ typesToPrune exReserved defaultOptions ∧
        ∀ b, ("__Intro", b) ∉ initUnused exReserved) :=
  ⟨by decide, reserved_names_never_pruned exReserved defaultOptions "__Intro" (by decide)⟩

/-- C9: a type for which the caller-supplied `skipPruning` predicate returns
true is never in the removal set of a pass, whatever the category rules would
otherwise decide. -/
theorem skipPruning_predicate_exempts (s : Schema) (o : PruneSchemaOptions)
    (p : String → TypeDef → Bool) (n : String)
    (ho : o.skipPruning = some p)
    (hall : ∀ td, (n, td) ∈ s.types → p n td = true) :
    n ∉ typesToPrune s o := by
  intro hmem
  unfold typesToPrune at hmem
  obtain ⟨q, hq, hqn⟩ := List.mem_map.mp hmem
  have hspr : shouldPrune (createPruningContext s) (visitTypes s) o q.1 q.2 = true :=
    (List.mem_filter.mp hq).2
  have hqmem : q ∈ s.types := List.mem_of_mem_filter hq
  unfold shouldPrune at hspr
  cases hr : isReservedName q.1 with
  | true => simp [hr] at hspr
  | false =>
      have hmem2 : (n, q.2) ∈ s.types := by
        rw [← hqn]
        exact hqmem
      have happ : skipPruningApplies o q.1 q.2 = true := by
        unfold skipPruningApplies
        rw [ho, hqn]
        exact hall q.2 hmem2
      simp [hr, happ] at hspr

/-- C9 witness: in `exSkipPred` the unused object `B` is removed by the
default configuration but exempted by the predicate configuration. -/
theorem skipPruning_predicate_exempts_witness :
    "B" ∈ typesToPrune exSkipPred defaultOptions ∧
      "B" ∉ typesToPrune exSkipPred predOptions :=
  ⟨by decide,
   skipPruning_predicate_exempts exSkipPred predOptions (fun n _ => n == "B") "B" rfl
     (fun _ _ => beq_self_eq_true "B")⟩

/-- C10: the output-position and input-position traversals share one visited
set, and a name is marked by at most one of them: the position recorded for a
visited name is unique, so the set of names visited in output position and the
set visited in input position are disjoint. -/
theorem visited_position_unique (s : Schema) (n : String) (b b' : Bool)
    (h1 : (n, b) ∈ (visitTypes s).visited) (h2 : (n, b') ∈ (visitTypes s).visited) :
    b = b' :=
  value_eq_of_keysNodup (visitTypes_visitedKeysNodup s) n b b' h1 h2

/-- C10 witness: the root of `exReach` is visited in output position, and the
uniqueness theorem applies to it. -/
theorem visited_position_unique_witness :
    ("Query", true) ∈ (visitTypes exReach).visited ∧ true = true :=
  ⟨by decide, visited_position_unique exReach "Query" true true (by decide) (by decide)⟩

end Prune
